import Mathlib

/-!
Verification development for the NR-U BWP assignment module
(NrUeLbt, NrUeBwpManager, NrUeAiScheduler, GymBwpRlEnv).

The C++ sources are shallowly embedded: `double` values become `ℚ`,
ns-3 `Time` values become `ℚ` seconds, and the machine-width counters
become `ℕ` (with explicit modular arithmetic where wrap-around is
observable).  Randomness (backoff draws, WiFi busy durations, the
epsilon-greedy coin) is exposed as explicit arguments, and the
simulator clock as an explicit `now` argument, so every method of the
source becomes a pure function on the embedded state.
-/

namespace NrU

/-! ## NrUeLbt: per-BWP LBT state (struct BwpLbtState in nr-u-lbt.h) -/

/-- Per-BWP LBT state, mirroring `NrUeLbt::BwpLbtState`.  `Time`
members are in seconds; `double` members are rationals. -/
structure BwpLbtState where
  bwpId : ℕ
  currentCw : ℕ
  wifiPoissonMean : ℚ
  wifiOccupancy : ℚ
  lbtFailureRate : ℚ
  totalAttempts : ℕ
  totalFailures : ℕ
  channelBusyUntil : ℚ
  channelOccupiedUntil : ℚ
  lastUpdateTime : ℚ
deriving DecidableEq, Repr

/-- The configuration attributes of `NrUeLbt` (CwMin, CwMax,
IccaDuration, McotDuration; defaults 8, 128, 1, 5). -/
structure LbtParams where
  cwMin : ℕ
  cwMax : ℕ
  iccaDuration : ℕ
  mcotDuration : ℕ
deriving DecidableEq, Repr

/-- `MilliSeconds (slots * 0.5)` as it appears in the source: ns-3
`MilliSeconds` takes `uint64_t`, so the `double` argument
`slots * 0.5` is truncated to `⌊slots / 2⌋` whole milliseconds, here
converted to seconds. -/
def slotsToSec (slots : ℕ) : ℚ := ((slots / 2 : ℕ) : ℚ) / 1000

/-- `MilliSeconds (m)` in seconds. -/
def msToSec (m : ℕ) : ℚ := (m : ℚ) / 1000

/-- `NrUeLbt::AddBwp`: fresh state with `currentCw = m_cwMin`, zero
counters and statistics; the `Time` members default-construct to 0. -/
def addBwp (p : LbtParams) (now : ℚ) (bwpId : ℕ) (wifiPoissonMean : ℚ) : BwpLbtState :=
  { bwpId := bwpId
    currentCw := p.cwMin
    wifiPoissonMean := wifiPoissonMean
    wifiOccupancy := 0
    lbtFailureRate := 0
    totalAttempts := 0
    totalFailures := 0
    channelBusyUntil := 0
    channelOccupiedUntil := 0
    lastUpdateTime := now }

/-- `NrUeLbt::UpdateFailureRate`: exponential moving average
`rate ← 0.9·rate + 0.1·(totalFailures / totalAttempts)`, evaluated on
the current (already incremented) counters. -/
def updateFailureRate (s : BwpLbtState) : BwpLbtState :=
  { s with lbtFailureRate :=
      (9/10) * s.lbtFailureRate
        + (1/10) * ((s.totalFailures : ℚ) / (s.totalAttempts : ℚ)) }

/-- `NrUeLbt::ChannelAccessRequest` on one BWP state.  `now` is
`Simulator::Now ()` and `draw` the value returned by
`m_uniformRandom->GetInteger (0, currentCw - 1)`.  Faithful to the
source: ICCA denies when `now < channelBusyUntil`; otherwise the ECCA
branch computes `endTime = now + MilliSeconds (draw * 0.5)` and takes
the failure branch (count, rate, CW doubling capped at `cwMax`)
whenever `endTime > channelBusyUntil`, granting otherwise with
`currentCw = cwMin` and `channelOccupiedUntil = now + mcot`. -/
def channelAccessRequest (p : LbtParams) (now : ℚ) (draw : ℕ) (s0 : BwpLbtState) :
    BwpLbtState × Bool :=
  let s := { s0 with totalAttempts := s0.totalAttempts + 1 }
  if now < s.channelBusyUntil then
    (updateFailureRate { s with totalFailures := s.totalFailures + 1 }, false)
  else
    let endTime := now + slotsToSec draw
    if s.channelBusyUntil < endTime then
      let s1 := updateFailureRate { s with totalFailures := s.totalFailures + 1 }
      ({ s1 with currentCw := min (2 * s1.currentCw) p.cwMax }, false)
    else
      ({ s with currentCw := p.cwMin
                channelOccupiedUntil := now + msToSec p.mcotDuration }, true)

/-- `NrUeLbt::HandleWifiInterference`: `busySlots = 1 + rand () % 5`
is passed in as a parameter.  The channel is marked busy for
`MilliSeconds (busySlots * 0.5)` (truncated, see `slotsToSec`) while
the occupancy sample uses the untruncated expression
`busySlots * 0.5 / delta.GetSeconds ()` exactly as in the source. -/
def handleWifiInterference (now : ℚ) (busySlots : ℕ) (s : BwpLbtState) : BwpLbtState :=
  let delta := now - s.lastUpdateTime
  { s with
      channelBusyUntil := now + slotsToSec busySlots
      wifiOccupancy := s.wifiOccupancy * (9/10) + (1/10) * ((busySlots : ℚ) * (1/2) / delta)
      lastUpdateTime := now }

/-- One event hitting a single BWP state: either a channel-access
request (`ChannelAccessRequest`) at time `now` with backoff draw
`draw`, or a WiFi interference arrival (`HandleWifiInterference`) at
time `now` with busy duration `busySlots`. -/
inductive LbtEvent where
  | access (now : ℚ) (draw : ℕ)
  | wifi (now : ℚ) (busySlots : ℕ)
deriving DecidableEq, Repr

/-- Apply one event to a BWP state. -/
def stepLbt (p : LbtParams) (s : BwpLbtState) : LbtEvent → BwpLbtState
  | .access now draw => (channelAccessRequest p now draw s).1
  | .wifi now busySlots => handleWifiInterference now busySlots s

/-- Run a sequence of events. -/
def runLbt (p : LbtParams) (s : BwpLbtState) (es : List LbtEvent) : BwpLbtState :=
  es.foldl (stepLbt p) s

/-! ## NrUeLbt: the controller-level map `m_bwpStates` -/

/-- The value-initialized `BwpLbtState` that `std::map::operator[]`
inserts for a key that is not present. -/
def zeroBwpLbtState : BwpLbtState :=
  { bwpId := 0, currentCw := 0, wifiPoissonMean := 0, wifiOccupancy := 0
    lbtFailureRate := 0, totalAttempts := 0, totalFailures := 0
    channelBusyUntil := 0, channelOccupiedUntil := 0, lastUpdateTime := 0 }

/-- The `NrUeLbt` object: its configuration attributes and the
`m_bwpStates` map. -/
structure NrUeLbt where
  params : LbtParams
  bwpStates : ℕ → Option BwpLbtState

/-- `m_bwpStates[bwpId]` read as a value: the stored state, or the
value-initialized state that `operator[]` creates for a missing key. -/
def mapIndexBwp (c : NrUeLbt) (bwpId : ℕ) : BwpLbtState :=
  (c.bwpStates bwpId).getD zeroBwpLbtState

/-- `NrUeLbt::AddBwp` at controller level: stores a fresh state for
`bwpId` (last write wins). -/
def lbtAddBwp (c : NrUeLbt) (now : ℚ) (bwpId : ℕ) (mean : ℚ) : NrUeLbt :=
  { c with bwpStates := fun k =>
      if k = bwpId then some (addBwp c.params now bwpId mean) else c.bwpStates k }

/-- `NrUeLbt::ChannelAccessRequest` at controller level:
`auto& state = m_bwpStates[bwpId]` inserts a value-initialized state
for an unknown id before the access procedure runs on it. -/
def lbtChannelAccessRequest (c : NrUeLbt) (now : ℚ) (draw : ℕ) (bwpId : ℕ) :
    NrUeLbt × Bool :=
  let s := mapIndexBwp c bwpId
  let r := channelAccessRequest c.params now draw s
  ({ c with bwpStates := fun k => if k = bwpId then some r.1 else c.bwpStates k }, r.2)

/-- The upper bound of the ECCA backoff draw,
`m_uniformRandom->GetInteger (0, state.currentCw - 1)`: `currentCw`
(a `uint16_t`) is promoted to `int`, 1 is subtracted, and the result
is converted to the `uint32_t` parameter of `GetInteger`, i.e. taken
modulo 2^32.  For `currentCw = 0` this is 2^32 - 1. -/
def eccaUpperBound (cw : ℕ) : ℕ := (2 ^ 32 + cw - 1) % 2 ^ 32

/-- `NrUeLbt::GetFailureRate`: 0.0 for an unknown id. -/
def getFailureRate (c : NrUeLbt) (bwpId : ℕ) : ℚ :=
  match c.bwpStates bwpId with
  | some s => s.lbtFailureRate
  | none => 0

/-- `NrUeLbt::GetWifiOccupancy`: 0.0 for an unknown id. -/
def getWifiOccupancy (c : NrUeLbt) (bwpId : ℕ) : ℚ :=
  match c.bwpStates bwpId with
  | some s => s.wifiOccupancy
  | none => 0

/-- `NrUeLbt::GetContentionWindow`: `m_cwMin` for an unknown id. -/
def getContentionWindow (c : NrUeLbt) (bwpId : ℕ) : ℕ :=
  match c.bwpStates bwpId with
  | some s => s.currentCw
  | none => c.params.cwMin

/-! ## NrUeBwpManager (nr-u-bwp-manager.h / .cc)

`m_bwpMap : std::map<uint16_t, BwpInfo>` is embedded as the key set
`bwps` together with the field functions `numRbs` and `activeUes`
(meaningful on keys of `bwps`); `m_ueMap : std::map<uint16_t, uint16_t>`
as the key set `ues` together with `ueBwp`.  The `uint16_t` counters
are embedded as `ℕ`; their wrap-around is unreachable in every theorem
below because the registry invariant keeps each count equal to an
exact fiber cardinality. -/

structure NrUeBwpManager where
  defaultBwpId : ℕ
  bwps : Finset ℕ
  numRbs : ℕ → ℕ
  activeUes : ℕ → ℕ
  ues : Finset ℕ
  ueBwp : ℕ → ℕ

/-- `m_bwpMap[b]` insert-on-access: if `b` is not a key, `operator[]`
value-initializes a `BwpInfo` (all fields zero) for it. -/
def touchBwp (m : NrUeBwpManager) (b : ℕ) : NrUeBwpManager :=
  if b ∈ m.bwps then m
  else
    { m with
        bwps := insert b m.bwps
        numRbs := Function.update m.numRbs b 0
        activeUes := Function.update m.activeUes b 0 }

/-- `NrUeBwpManager::AddBwp`: overwrites the `BwpInfo` for `bwpId`
with `numRbs` resource blocks and `activeUes = 0`. -/
def mgrAddBwp (m : NrUeBwpManager) (bwpId numRbs : ℕ) : NrUeBwpManager :=
  { m with
      bwps := insert bwpId m.bwps
      numRbs := Function.update m.numRbs bwpId numRbs
      activeUes := Function.update m.activeUes bwpId 0 }

/-- `NrUeBwpManager::AddUe`: no-op for a known UE; otherwise maps the
UE to the default BWP and increments that BWP's active count (via
`m_bwpMap[m_defaultBwpId]`, which inserts if missing). -/
def addUe (m : NrUeBwpManager) (ueId : ℕ) : NrUeBwpManager :=
  if ueId ∈ m.ues then m
  else
    let m1 := touchBwp m m.defaultBwpId
    { m1 with
        ues := insert ueId m1.ues
        ueBwp := Function.update m1.ueBwp ueId m1.defaultBwpId
        activeUes := Function.update m1.activeUes m1.defaultBwpId
          (m1.activeUes m1.defaultBwpId + 1) }

/-- `NrUeBwpManager::RemoveUe`: no-op for an unknown UE; otherwise
decrements the active count of the UE's BWP and erases the UE. -/
def removeUe (m : NrUeBwpManager) (ueId : ℕ) : NrUeBwpManager :=
  if ueId ∈ m.ues then
    let b := m.ueBwp ueId
    let m1 := touchBwp m b
    { m1 with
        activeUes := Function.update m1.activeUes b (m1.activeUes b - 1)
        ues := m1.ues.erase ueId }
  else m

/-- `NrUeBwpManager::SwitchBwp`: requires both the UE and the target
BWP to be registered (otherwise logged and ignored); no-op when the
target equals the current BWP; otherwise decrements the old BWP's
count, increments the new one and updates the UE's mapping. -/
def switchBwp (m : NrUeBwpManager) (ueId newBwpId : ℕ) : NrUeBwpManager :=
  if ueId ∈ m.ues ∧ newBwpId ∈ m.bwps then
    let oldBwpId := m.ueBwp ueId
    if oldBwpId = newBwpId then m
    else
      let m1 := touchBwp m oldBwpId
      let a1 := Function.update m1.activeUes oldBwpId (m1.activeUes oldBwpId - 1)
      { m1 with
          activeUes := Function.update a1 newBwpId (a1 newBwpId + 1)
          ueBwp := Function.update m1.ueBwp ueId newBwpId }
  else m

/-- `NrUeBwpManager::GetNumRbs`: 0 for an unknown BWP id. -/
def getNumRbs (m : NrUeBwpManager) (bwpId : ℕ) : ℕ :=
  if bwpId ∈ m.bwps then m.numRbs bwpId else 0

/-- `NrUeBwpManager::GetActiveUes`: 0 for an unknown BWP id. -/
def getActiveUes (m : NrUeBwpManager) (bwpId : ℕ) : ℕ :=
  if bwpId ∈ m.bwps then m.activeUes bwpId else 0

/-- `NrUeBwpManager::GetUeBwp`: falls back to the default BWP id. -/
def getUeBwp (m : NrUeBwpManager) (ueId : ℕ) : ℕ :=
  if ueId ∈ m.ues then m.ueBwp ueId else m.defaultBwpId

/-- The registry events claim C3 ranges over. -/
inductive MgrEvent where
  | addUe (ueId : ℕ)
  | removeUe (ueId : ℕ)
  | switchBwp (ueId newBwpId : ℕ)
deriving DecidableEq, Repr

/-- Apply one registry event. -/
def mgrStep (m : NrUeBwpManager) : MgrEvent → NrUeBwpManager
  | .addUe u => addUe m u
  | .removeUe u => removeUe m u
  | .switchBwp u b => switchBwp m u b

/-- Run a sequence of registry events. -/
def mgrRun (m : NrUeBwpManager) (es : List MgrEvent) : NrUeBwpManager :=
  es.foldl mgrStep m

/-- Registry invariant: the default BWP is registered, every
registered UE sits on a registered BWP, and every registered BWP's
active count equals the exact number of UEs currently mapped to it. -/
def MgrInv (m : NrUeBwpManager) : Prop :=
  m.defaultBwpId ∈ m.bwps ∧
  (∀ u ∈ m.ues, m.ueBwp u ∈ m.bwps) ∧
  (∀ b ∈ m.bwps, m.activeUes b = (m.ues.filter (fun u => m.ueBwp u = b)).card)

instance (m : NrUeBwpManager) : Decidable (MgrInv m) := by
  unfold MgrInv; infer_instance

/-! ## NrUeAiScheduler (nr-u-scheduler-ai.h / .cc) -/

/-- `NrUeAiScheduler::BwpStats`. -/
structure BwpStats where
  bwpId : ℕ
  lbtFailureRate : ℚ
  wifiOccupancy : ℚ
  contentionWindow : ℚ
  avgBitsPerRb : ℚ
  totalThroughput : ℚ
  totalCollisions : ℕ
deriving DecidableEq, Repr

/-- `NrUeAiScheduler::UeStats`. -/
structure UeStats where
  ueId : ℕ
  currentBwp : ℕ
  queueSize : ℕ
  holDelay : ℚ
  throughput : ℚ
  avgBitsPerRb : ℚ
deriving DecidableEq, Repr

/-- The per-BWP metric of `AssignBwpsLca`:
`(1 - lbtFailureRate) * avgBitsPerRb * GetNumRbs (bwpId)`. -/
def lcaMetric (mgr : NrUeBwpManager) (s : BwpStats) : ℚ :=
  (1 - s.lbtFailureRate) * s.avgBitsPerRb * (getNumRbs mgr s.bwpId : ℚ)

/-- The best-BWP scan of `AssignBwpsLca`: starting from
`bestBwp = 0, maxMetric = 0.0`, each BWP with a metric strictly above
the running maximum replaces it. -/
def lcaBest (mgr : NrUeBwpManager) (stats : List BwpStats) : ℕ × ℚ :=
  stats.foldl
    (fun best s => if best.2 < lcaMetric mgr s then (s.bwpId, lcaMetric mgr s) else best)
    (0, 0)

/-- `std::round` of the (nonnegative) proportional share, converted to
the `uint16_t` element type of `uesPerBwp`. -/
def lcaRound (x : ℚ) : ℕ := (round x).toNat

/-- The inner UE-distribution loop of the `|U| > k` branch of
`AssignBwpsLca`: BWPs in list order each consume their quota from the
remaining UE list until it is exhausted. -/
def distributeLoop (mgr : NrUeBwpManager) (pairs : List (BwpStats × ℕ))
    (ues : List UeStats) : NrUeBwpManager :=
  match pairs with
  | [] => mgr
  | (s, q) :: rest =>
      distributeLoop
        ((ues.take q).foldl (fun m u => switchBwp m u.ueId s.bwpId) mgr)
        rest (ues.drop q)

/-- `NrUeAiScheduler::AssignBwpsLca`: when the UE count is at most
`m_maxScheduledUes`, every UE is switched to the scan winner;
otherwise UEs are distributed proportionally to the metrics. -/
def assignBwpsLca (mgr : NrUeBwpManager) (stats : List BwpStats)
    (ues : List UeStats) (maxScheduledUes : ℕ) : NrUeBwpManager :=
  let best := (lcaBest mgr stats).1
  if ues.length ≤ maxScheduledUes then
    ues.foldl (fun m u => switchBwp m u.ueId best) mgr
  else
    let metrics := stats.map (lcaMetric mgr)
    let total := metrics.sum
    let quota := metrics.map (fun x => lcaRound ((ues.length : ℚ) * (x / total)))
    distributeLoop mgr (stats.zip quota) ues

/-- The RLA exploration state of `NrUeAiScheduler`. -/
structure RlaState where
  epsilon : ℚ
  epsilonMin : ℚ
  epsilonDecay : ℚ
deriving DecidableEq, Repr

/-- `NrUeAiScheduler::AssignBwpsRla`: with no RL environment attached
this is `NS_FATAL_ERROR` (embedded as `none`); otherwise the action is
the random one when `rand () / RAND_MAX < epsilon` and the greedy one
otherwise, and in either branch epsilon is then updated once as
`epsilon ← max (epsilon * epsilonDecay, epsilonMin)`. -/
def assignBwpsRla (hasEnv : Bool) (randDraw : ℚ) (randomAction greedyAction : ℕ)
    (s : RlaState) : Option (RlaState × ℕ) :=
  if !hasEnv then none
  else
    let action := if randDraw < s.epsilon then randomAction else greedyAction
    some ({ s with epsilon := max (s.epsilon * s.epsilonDecay) s.epsilonMin }, action)

/-- One decision window's RLA inputs: the coin draw and the two
candidate actions. -/
structure RlaWindow where
  randDraw : ℚ
  randomAction : ℕ
  greedyAction : ℕ
deriving DecidableEq, Repr

/-- Iterate `AssignBwpsRla` (with the environment attached) over a
sequence of decision windows, tracking the exploration state. -/
def runRla (s : RlaState) (ws : List RlaWindow) : RlaState :=
  ws.foldl
    (fun st w =>
      ((assignBwpsRla true w.randDraw w.randomAction w.greedyAction st).getD (st, 0)).1)
    s

/-! ## GymBwpRlEnv::GetReward (bwp-rl-env.cc) -/

/-- `GymBwpRlEnv::GetReward`: sums head-of-line delays and throughputs
over the UE statistics, then computes
`avgHolDelay /= ueStats.size ()` — with no guard in the source, so an
empty UE list divides by zero (an IEEE NaN in the C++ `double`
arithmetic), embedded here as `none`.  Otherwise the reward is
`-(alpha * avgHolDelay + beta * (maxThroughput - totalThroughput))`. -/
def getReward (alpha beta maxThroughput : ℚ) (ueStats : List UeStats) : Option ℚ :=
  let delaySum := (ueStats.map UeStats.holDelay).sum
  let totalThroughput := (ueStats.map UeStats.throughput).sum
  if ueStats.length = 0 then none
  else
    let avgHolDelay := delaySum / (ueStats.length : ℚ)
    some (-(alpha * avgHolDelay + beta * (maxThroughput - totalThroughput)))

/-! ## Invariants and concrete fixtures -/

/-- The contention-window invariant of claim C2. -/
def CwInv (p : LbtParams) (s : BwpLbtState) : Prop :=
  p.cwMin ≤ s.currentCw ∧ s.currentCw ≤ p.cwMax

instance (p : LbtParams) (s : BwpLbtState) : Decidable (CwInv p s) := by
  unfold CwInv; infer_instance

/-- Statistics invariant for a single BWP state: failures never exceed
attempts, the smoothed failure rate stays in `[0,1]`, and the smoothed
occupancy stays nonnegative. -/
def LbtInv (s : BwpLbtState) : Prop :=
  s.totalFailures ≤ s.totalAttempts ∧
  0 ≤ s.lbtFailureRate ∧ s.lbtFailureRate ≤ 1 ∧
  0 ≤ s.wifiOccupancy

instance (s : BwpLbtState) : Decidable (LbtInv s) := by
  unfold LbtInv; infer_instance

/-- Event-sequence admissibility: every WiFi interference arrival
happens strictly after the state's `lastUpdateTime`.  This holds for
the renewal process of the source, whose arrivals occur at strictly
increasing times with `interval = 1 / wifiPoissonMean > 0`. -/
def admissibleB (p : LbtParams) : BwpLbtState → List LbtEvent → Bool
  | _, [] => true
  | s, e :: es =>
      (match e with
       | LbtEvent.wifi now _ => decide (s.lastUpdateTime < now)
       | LbtEvent.access _ _ => true) && admissibleB p (stepLbt p s e) es

/-- Default attribute values of `NrUeLbt`:
CwMin 8, CwMax 128, IccaDuration 1, McotDuration 5. -/
def p0 : LbtParams := ⟨8, 128, 1, 5⟩

/-- A controller with default attributes and no registered BWP. -/
def lbtEmpty : NrUeLbt := ⟨p0, fun _ => none⟩

/-- Concrete registry fixture: BWPs 0 and 1 registered, no UE yet. -/
def mgr0 : NrUeBwpManager :=
  { defaultBwpId := 0
    bwps := {0, 1}
    numRbs := fun _ => 10
    activeUes := fun _ => 0
    ues := ∅
    ueBwp := fun _ => 0 }

/-- Registry fixture for the end-to-end LCA scenario: BWPs 0 and 1
with 10 resource blocks each, UEs 1–5 all on BWP 1. -/
def mgrC5 : NrUeBwpManager :=
  { defaultBwpId := 0
    bwps := {0, 1}
    numRbs := fun _ => 10
    activeUes := fun b => if b = 1 then 5 else 0
    ues := {1, 2, 3, 4, 5}
    ueBwp := fun _ => 1 }

/-- BWP statistics of the scenario: failure rates 0.1 and 0.5 with
`avgBitsPerRb = 20`, giving metrics 180 and 100. -/
def statsC5 : List BwpStats :=
  [⟨0, 1/10, 1/5, 8, 20, 0, 0⟩, ⟨1, 1/2, 2/5, 8, 20, 0, 0⟩]

/-- The five UEs of the scenario, all currently on BWP 1. -/
def uesC5 : List UeStats :=
  [⟨1, 1, 0, 0, 0, 0⟩, ⟨2, 1, 0, 0, 0, 0⟩, ⟨3, 1, 0, 0, 0, 0⟩,
   ⟨4, 1, 0, 0, 0, 0⟩, ⟨5, 1, 0, 0, 0, 0⟩]

/-! ## Theorems -/

/-- Evaluation of the concrete request used by C1 and the C4 witness:
fresh BWP (busyUntil 0), request at 1 s with backoff draw 4. -/
theorem lbt_idle_request_eval :
    channelAccessRequest p0 1 4 (addBwp p0 0 0 10) =
      ({ bwpId := 0, currentCw := 16, wifiPoissonMean := 10, wifiOccupancy := 0,
         lbtFailureRate := 1/10, totalAttempts := 1, totalFailures := 1,
         channelBusyUntil := 0, channelOccupiedUntil := 0, lastUpdateTime := 0 },
       false) := by
  norm_num [channelAccessRequest, addBwp, p0, updateFailureRate, slotsToSec]

/-- C1: with the channel completely idle (`channelBusyUntil = 0`) the
ICCA check passes, yet `ChannelAccessRequest` at time 1 s with backoff
draw 4 takes the "ECCA interrupted" branch — it denies, counts a
failure and doubles the contention window — because the source tests
`endTime > channelBusyUntil` instead of the documented "still busy at
backoff completion" condition.  The claim (deny exactly when still
within a busy interval at backoff completion) requires this request to
be granted. -/
theorem C1_ecca_denies_idle_channel :
    (addBwp p0 0 0 10).channelBusyUntil = 0 ∧
    (addBwp p0 0 0 10).channelBusyUntil < 1 ∧
    (channelAccessRequest p0 1 4 (addBwp p0 0 0 10)).2 = false ∧
    (channelAccessRequest p0 1 4 (addBwp p0 0 0 10)).1.totalFailures = 1 ∧
    (channelAccessRequest p0 1 4 (addBwp p0 0 0 10)).1.currentCw = 16 := by
  refine ⟨rfl, by norm_num [addBwp], ?_, ?_, ?_⟩ <;> rw [lbt_idle_request_eval]

/-- C4: after any denied `ChannelAccessRequest` (ICCA or ECCA branch),
the new failure rate equals exactly
`0.9 · oldRate + 0.1 · (totalFailures / totalAttempts)` where both
counters carry the increments of that same call. -/
theorem C4_failure_rate_smoothing (p : LbtParams) (now : ℚ) (draw : ℕ)
    (s : BwpLbtState) (h : (channelAccessRequest p now draw s).2 = false) :
    (channelAccessRequest p now draw s).1.lbtFailureRate =
      (9/10) * s.lbtFailureRate
        + (1/10) * (((channelAccessRequest p now draw s).1.totalFailures : ℚ)
            / ((channelAccessRequest p now draw s).1.totalAttempts : ℚ)) := by
  simp only [channelAccessRequest] at h ⊢
  split_ifs at h ⊢ with h1 h2 <;> simp_all [updateFailureRate]

/-- Witness for C4 at a concrete denied request. -/
theorem C4_failure_rate_smoothing_witness :
    (channelAccessRequest p0 1 4 (addBwp p0 0 0 10)).2 = false ∧
    (channelAccessRequest p0 1 4 (addBwp p0 0 0 10)).1.lbtFailureRate =
      (9/10) * (addBwp p0 0 0 10).lbtFailureRate
        + (1/10) * (((channelAccessRequest p0 1 4 (addBwp p0 0 0 10)).1.totalFailures : ℚ)
            / ((channelAccessRequest p0 1 4 (addBwp p0 0 0 10)).1.totalAttempts : ℚ)) :=
  ⟨by rw [lbt_idle_request_eval],
   C4_failure_rate_smoothing p0 1 4 (addBwp p0 0 0 10) (by rw [lbt_idle_request_eval])⟩

/-- C8: the three statistics getters return the neutral defaults
(0, 0, and `m_cwMin`) for an id that has no entry in `m_bwpStates`,
and, being pure functions of the controller value, leave it
unchanged. -/
theorem C8_unknown_id_neutral_defaults (c : NrUeLbt) (bwpId : ℕ)
    (h : c.bwpStates bwpId = none) :
    getFailureRate c bwpId = 0 ∧
    getWifiOccupancy c bwpId = 0 ∧
    getContentionWindow c bwpId = c.params.cwMin := by
  simp [getFailureRate, getWifiOccupancy, getContentionWindow, h]

/-- Witness for C8 on the empty controller with default attributes. -/
theorem C8_unknown_id_neutral_defaults_witness :
    lbtEmpty.bwpStates 3 = none ∧
    (getFailureRate lbtEmpty 3 = 0 ∧
     getWifiOccupancy lbtEmpty 3 = 0 ∧
     getContentionWindow lbtEmpty 3 = lbtEmpty.params.cwMin) :=
  ⟨rfl, C8_unknown_id_neutral_defaults lbtEmpty 3 rfl⟩

/-- C9: `GymBwpRlEnv::GetReward` divides the accumulated delay by
`ueStats.size ()` without any guard, so with zero registered terminals
the division has a zero denominator (`none` here, an IEEE NaN in the
source); for a non-empty terminal set the reward is exactly
`-(alpha · avgHolDelay + beta · (maxThroughput - totalThroughput))`. -/
theorem C9_reward_zero_terminals :
    getReward 1 1 1000 [] = none ∧
    getReward 1 1 1000 [⟨1, 0, 0, 7, 50, 2⟩] = some (-957) := by
  refine ⟨rfl, ?_⟩
  norm_num [getReward]

/-- C10 counterexample: on a request for the unregistered id 7,
`operator[]` inserts the value-initialized state whose
`currentCw = 0`, and the ECCA draw's upper bound
`GetInteger (0, currentCw - 1)` is `0 - 1` promoted to `int` and
converted to the `uint32_t` parameter: 4294967295, not the 65535 the
claim states. -/
theorem C10_counterexample :
    lbtEmpty.bwpStates 7 = none ∧
    (mapIndexBwp lbtEmpty 7).currentCw = 0 ∧
    eccaUpperBound ((mapIndexBwp lbtEmpty 7).currentCw) = 4294967295 ∧
    ¬ eccaUpperBound ((mapIndexBwp lbtEmpty 7).currentCw) = 65535 := by
  decide

/-- C10 (amended): a `ChannelAccessRequest` for an unregistered id
inserts a value-initialized state whose `currentCw = 0` (violating
`cwMin ≤ contentionWindow` whenever `0 < cwMin`), the ECCA draw's
upper bound underflows to 4294967295, and for any positive `now` the
ICCA check passes, the request is denied, and the stored contention
window remains 0. -/
theorem C10_unregistered_access (c : NrUeLbt) (bwpId : ℕ) (now : ℚ) (draw : ℕ)
    (hmiss : c.bwpStates bwpId = none) (hnow : 0 < now) :
    mapIndexBwp c bwpId = zeroBwpLbtState ∧
    (mapIndexBwp c bwpId).currentCw = 0 ∧
    eccaUpperBound ((mapIndexBwp c bwpId).currentCw) = 4294967295 ∧
    (lbtChannelAccessRequest c now draw bwpId).2 = false ∧
    ((lbtChannelAccessRequest c now draw bwpId).1.bwpStates bwpId).isSome = true ∧
    getContentionWindow (lbtChannelAccessRequest c now draw bwpId).1 bwpId = 0 := by
  have hzero : mapIndexBwp c bwpId = zeroBwpLbtState := by
    simp [mapIndexBwp, hmiss]
  have hslot : (0 : ℚ) ≤ slotsToSec draw := by
    unfold slotsToSec
    positivity
  have hbusy : ¬ (now < (0 : ℚ)) := not_lt.mpr (le_of_lt hnow)
  have hend : (0 : ℚ) < now + slotsToSec draw := by linarith
  have heval : channelAccessRequest c.params now draw zeroBwpLbtState =
      ({ zeroBwpLbtState with
          totalAttempts := 1
          totalFailures := 1
          lbtFailureRate := 1/10 }, false) := by
    simp only [channelAccessRequest, zeroBwpLbtState, updateFailureRate]
    rw [if_neg hbusy, if_pos hend]
    norm_num
  refine ⟨hzero, by rw [hzero]; decide, by rw [hzero]; decide, ?_, ?_, ?_⟩
  · simp only [lbtChannelAccessRequest, hzero, heval]
  · simp [lbtChannelAccessRequest]
  · simp [lbtChannelAccessRequest, getContentionWindow, hzero, heval]
    decide

/-- Witness for C10 (amended) at the concrete input id 7, time 2 s,
draw 5, on the empty controller. -/
theorem C10_unregistered_access_witness :
    (lbtEmpty.bwpStates 7 = none ∧ (0 : ℚ) < 2) ∧
    (mapIndexBwp lbtEmpty 7 = zeroBwpLbtState ∧
     (mapIndexBwp lbtEmpty 7).currentCw = 0 ∧
     eccaUpperBound ((mapIndexBwp lbtEmpty 7).currentCw) = 4294967295 ∧
     (lbtChannelAccessRequest lbtEmpty 2 5 7).2 = false ∧
     ((lbtChannelAccessRequest lbtEmpty 2 5 7).1.bwpStates 7).isSome = true ∧
     getContentionWindow (lbtChannelAccessRequest lbtEmpty 2 5 7).1 7 = 0) :=
  ⟨⟨rfl, by norm_num⟩,
   C10_unregistered_access lbtEmpty 7 2 5 rfl (by norm_num)⟩

/-- One step of any event preserves the contention-window bounds when
`cwMin ≤ cwMax`: ICCA failures leave the window, ECCA failures double
it capped at `cwMax`, success resets it to `cwMin`, and interference
events do not touch it. -/
theorem cw_step_inv (p : LbtParams) (hp : p.cwMin ≤ p.cwMax) (s : BwpLbtState)
    (e : LbtEvent) (h : CwInv p s) : CwInv p (stepLbt p s e) := by
  obtain ⟨h1, h2⟩ := h
  cases e with
  | wifi now slots =>
      simp only [stepLbt, handleWifiInterference, CwInv]
      exact ⟨h1, h2⟩
  | access now draw =>
      simp only [stepLbt, channelAccessRequest]
      split_ifs with ha hb
      · simp only [CwInv, updateFailureRate]
        exact ⟨h1, h2⟩
      · simp only [CwInv, updateFailureRate]
        exact ⟨le_min (by omega) hp, min_le_right _ _⟩
      · simp only [CwInv]
        exact ⟨le_refl _, hp⟩

/-- The contention-window bounds hold after any run of events. -/
theorem runLbt_cw_inv (p : LbtParams) (hp : p.cwMin ≤ p.cwMax) (es : List LbtEvent) :
    ∀ s : BwpLbtState, CwInv p s → CwInv p (runLbt p s es) := by
  induction es with
  | nil => intro s h; exact h
  | cons e es ih => intro s h; exact ih _ (cw_step_inv p hp s e h)

/-- A granted request always stores `currentCw = cwMin`. -/
theorem car_granted_cw (p : LbtParams) (now : ℚ) (draw : ℕ) (s : BwpLbtState)
    (h : (channelAccessRequest p now draw s).2 = true) :
    (channelAccessRequest p now draw s).1.currentCw = p.cwMin := by
  simp only [channelAccessRequest] at h ⊢
  split_ifs at h ⊢
  all_goals simp_all

/-- C2: starting from `AddBwp` (which stores `currentCw = cwMin`) and
for any sequence of access requests and interference arrivals,
`cwMin ≤ currentCw ≤ cwMax` holds after every call whenever
`cwMin ≤ cwMax`, and any granted request leaves `currentCw = cwMin`. -/
theorem C2_contention_window_bounds (p : LbtParams) (hp : p.cwMin ≤ p.cwMax)
    (t mean : ℚ) (bwpId : ℕ) (es : List LbtEvent) :
    (p.cwMin ≤ (runLbt p (addBwp p t bwpId mean) es).currentCw ∧
     (runLbt p (addBwp p t bwpId mean) es).currentCw ≤ p.cwMax) ∧
    ∀ now draw,
      (channelAccessRequest p now draw (runLbt p (addBwp p t bwpId mean) es)).2 = true →
      (channelAccessRequest p now draw
          (runLbt p (addBwp p t bwpId mean) es)).1.currentCw = p.cwMin := by
  refine ⟨runLbt_cw_inv p hp es (addBwp p t bwpId mean) ⟨le_refl _, hp⟩, ?_⟩
  intro now draw h
  exact car_granted_cw p now draw _ h

/-- Witness for C2 with the default attributes and a concrete event
sequence. -/
theorem C2_contention_window_bounds_witness :
    p0.cwMin ≤ p0.cwMax ∧
    ((p0.cwMin ≤ (runLbt p0 (addBwp p0 0 0 10) [LbtEvent.access 1 4]).currentCw ∧
      (runLbt p0 (addBwp p0 0 0 10) [LbtEvent.access 1 4]).currentCw ≤ p0.cwMax) ∧
     ∀ now draw,
       (channelAccessRequest p0 now draw
           (runLbt p0 (addBwp p0 0 0 10) [LbtEvent.access 1 4])).2 = true →
       (channelAccessRequest p0 now draw
           (runLbt p0 (addBwp p0 0 0 10) [LbtEvent.access 1 4])).1.currentCw = p0.cwMin) :=
  ⟨by decide, C2_contention_window_bounds p0 (by decide) 0 10 0 [LbtEvent.access 1 4]⟩

/-- C6 counterexample: with `epsilonDecay = 1/2 ∈ (0,1]` and initial
`epsilon = -1 ≥ epsilonMin = -2`, one decision window raises epsilon
from -1 to -1/2, so the sequence is not non-increasing as the claim
states it for all such parameters. -/
theorem C6_counterexample :
    ((0 : ℚ) < (1/2 : ℚ) ∧ (1/2 : ℚ) ≤ 1 ∧ (-2 : ℚ) ≤ -1) ∧
    (runRla ⟨-1, -2, 1/2⟩ [⟨0, 0, 0⟩]).epsilon = -(1/2) ∧
    ¬ (runRla ⟨-1, -2, 1/2⟩ [⟨0, 0, 0⟩]).epsilon ≤
        (RlaState.mk (-1) (-2) (1/2)).epsilon := by
  have hrun : (runRla ⟨-1, -2, 1/2⟩ [⟨0, 0, 0⟩]).epsilon = -(1/2) := by
    simp only [runRla, assignBwpsRla, List.foldl]
    norm_num [max_eq_left (by norm_num : (-2 : ℚ) ≤ -1 * (1/2))]
  exact ⟨⟨by norm_num, by norm_num, by norm_num⟩, hrun, by rw [hrun]; norm_num⟩

/-- The exploration state produced by one decision window of
`AssignBwpsRla` (with the RL environment attached): epsilon becomes
`max (epsilon * epsilonDecay, epsilonMin)`, independently of the
coin draw and of which action was taken. -/
theorem assignBwpsRla_state (draw : ℚ) (ra ga : ℕ) (st : RlaState) :
    ((assignBwpsRla true draw ra ga st).getD (st, 0)).1 =
      { st with epsilon := max (st.epsilon * st.epsilonDecay) st.epsilonMin } := by
  simp [assignBwpsRla]

/-- One window appended to a run applies exactly one epsilon update to
the run's final state. -/
theorem runRla_append_epsilon (s : RlaState) (ws : List RlaWindow) (w : RlaWindow) :
    (runRla s (ws ++ [w])).epsilon =
      max ((runRla s ws).epsilon * (runRla s ws).epsilonDecay)
        (runRla s ws).epsilonMin := by
  simp [runRla, List.foldl_append, assignBwpsRla]

/-- Run invariant for the exploration schedule: the configuration
fields are constant along the run, epsilon never drops below
`epsilonMin`, and it never exceeds its starting value. -/
theorem runRla_inv (em d : ℚ) (hmin : 0 ≤ em) (hd1 : d ≤ 1) :
    ∀ (ws : List RlaWindow) (st : RlaState), st.epsilonMin = em → st.epsilonDecay = d →
      em ≤ st.epsilon →
      (runRla st ws).epsilonMin = em ∧ (runRla st ws).epsilonDecay = d ∧
      em ≤ (runRla st ws).epsilon ∧ (runRla st ws).epsilon ≤ st.epsilon := by
  intro ws
  induction ws with
  | nil => intro st h1 h2 h3; exact ⟨h1, h2, h3, le_refl _⟩
  | cons w ws ih =>
      intro st h1 h2 h3
      have hrw : runRla st (w :: ws) =
          runRla { st with epsilon := max (st.epsilon * st.epsilonDecay) st.epsilonMin } ws := by
        show runRla ((assignBwpsRla true w.randDraw w.randomAction
            w.greedyAction st).getD (st, 0)).1 ws = _
        rw [assignBwpsRla_state]
      have h0 : 0 ≤ st.epsilon := le_trans hmin h3
      have hub : max (st.epsilon * st.epsilonDecay) st.epsilonMin ≤ st.epsilon :=
        max_le (mul_le_of_le_one_right h0 (by rw [h2]; exact hd1))
          (by rw [h1]; exact h3)
      have hge : em ≤ max (st.epsilon * st.epsilonDecay) st.epsilonMin :=
        le_trans (le_of_eq h1.symm) (le_max_right _ _)
      obtain ⟨a, b, c, dle⟩ :=
        ih { st with epsilon := max (st.epsilon * st.epsilonDecay) st.epsilonMin } h1 h2 hge
      rw [hrw]
      exact ⟨a, b, c, le_trans dle hub⟩

/-- C6 (amended): epsilon is updated exactly once per decision window
as `epsilon ← max (epsilon · epsilonDecay, epsilonMin)` regardless of
the branch taken, and for `epsilonDecay ∈ (0,1]`, `0 ≤ epsilonMin`
and an initial epsilon ≥ epsilonMin, the per-window epsilon sequence
is non-increasing and never drops below `epsilonMin`. -/
theorem C6_epsilon_decay_monotone (s : RlaState) (hmin : 0 ≤ s.epsilonMin)
    (_hd0 : 0 < s.epsilonDecay) (hd1 : s.epsilonDecay ≤ 1)
    (h0 : s.epsilonMin ≤ s.epsilon) :
    (∀ (draw : ℚ) (ra ga : ℕ),
        ((assignBwpsRla true draw ra ga s).getD (s, 0)).1.epsilon =
          max (s.epsilon * s.epsilonDecay) s.epsilonMin) ∧
    (∀ ws : List RlaWindow,
        s.epsilonMin ≤ (runRla s ws).epsilon ∧
        (runRla s ws).epsilon ≤ s.epsilon ∧
        ∀ w, (runRla s (ws ++ [w])).epsilon ≤ (runRla s ws).epsilon) := by
  constructor
  · intro draw ra ga
    rw [assignBwpsRla_state]
  · intro ws
    obtain ⟨hm, hd, hge, hle⟩ :=
      runRla_inv s.epsilonMin s.epsilonDecay hmin hd1 ws s rfl rfl h0
    refine ⟨hge, hle, ?_⟩
    intro w
    rw [runRla_append_epsilon]
    have h0' : 0 ≤ (runRla s ws).epsilon := le_trans hmin hge
    exact max_le (by rw [hd]; exact mul_le_of_le_one_right h0' hd1)
      (by rw [hm]; exact hge)

/-- Witness for C6 (amended) at the default attribute values
(epsilon 1.0, epsilonMin 0.01, epsilonDecay 0.995). -/
theorem C6_epsilon_decay_monotone_witness :
    ((0 : ℚ) ≤ 1/100 ∧ (0 : ℚ) < 199/200 ∧ (199/200 : ℚ) ≤ 1 ∧ (1/100 : ℚ) ≤ 1) ∧
    ((∀ (draw : ℚ) (ra ga : ℕ),
        ((assignBwpsRla true draw ra ga ⟨1, 1/100, 199/200⟩).getD
            (⟨1, 1/100, 199/200⟩, 0)).1.epsilon =
          max ((1 : ℚ) * (199/200)) (1/100)) ∧
     (∀ ws : List RlaWindow,
        (1/100 : ℚ) ≤ (runRla ⟨1, 1/100, 199/200⟩ ws).epsilon ∧
        (runRla ⟨1, 1/100, 199/200⟩ ws).epsilon ≤ 1 ∧
        ∀ w, (runRla ⟨1, 1/100, 199/200⟩ (ws ++ [w])).epsilon ≤
          (runRla ⟨1, 1/100, 199/200⟩ ws).epsilon)) :=
  ⟨⟨by norm_num, by norm_num, by norm_num, by norm_num⟩,
   C6_epsilon_decay_monotone ⟨1, 1/100, 199/200⟩ (by norm_num) (by norm_num)
     (by norm_num) (by norm_num)⟩

/-- C7 counterexample: one admissible interference arrival on a
freshly registered BWP (`wifiPoissonMean = 10`, so the first arrival
comes at 0.1 s) with the maximal busy duration `busySlots = 5` pushes
the smoothed occupancy to 5/2, outside `[0,1]`: the sample
`busySlots * 0.5 / delta.GetSeconds ()` divides a raw slot count by
the elapsed seconds, so it is unbounded. -/
theorem C7_counterexample :
    admissibleB p0 (addBwp p0 0 0 10) [LbtEvent.wifi (1/10) 5] = true ∧
    (runLbt p0 (addBwp p0 0 0 10) [LbtEvent.wifi (1/10) 5]).wifiOccupancy = 5/2 ∧
    ¬ (runLbt p0 (addBwp p0 0 0 10) [LbtEvent.wifi (1/10) 5]).wifiOccupancy ≤ 1 := by
  have hocc : (runLbt p0 (addBwp p0 0 0 10) [LbtEvent.wifi (1/10) 5]).wifiOccupancy = 5/2 := by
    show (handleWifiInterference (1/10) 5 (addBwp p0 0 0 10)).wifiOccupancy = 5/2
    norm_num [handleWifiInterference, addBwp]
  refine ⟨?_, hocc, by rw [hocc]; norm_num⟩
  simp only [admissibleB, stepLbt, Bool.and_true]
  norm_num [addBwp]

/-- The failure-rate sample `totalFailures / totalAttempts` of a
denied request stays in `[0,1]`, so the 0.9/0.1 smoothing keeps the
rate in `[0,1]`. -/
theorem rate_update_bounds (r : ℚ) (F A : ℕ) (hr0 : 0 ≤ r) (hr1 : r ≤ 1)
    (hFA : F ≤ A) (hA : 0 < A) :
    0 ≤ (9/10) * r + (1/10) * ((F : ℚ) / (A : ℚ)) ∧
    (9/10) * r + (1/10) * ((F : ℚ) / (A : ℚ)) ≤ 1 := by
  have hA' : (0 : ℚ) < (A : ℚ) := by exact_mod_cast hA
  have hq0 : (0 : ℚ) ≤ (F : ℚ) / (A : ℚ) := div_nonneg (Nat.cast_nonneg F) (le_of_lt hA')
  have hq1 : (F : ℚ) / (A : ℚ) ≤ 1 := by
    rw [div_le_one hA']
    exact_mod_cast hFA
  constructor <;> nlinarith

/-- `ChannelAccessRequest` preserves the statistics invariant. -/
theorem car_lbt_inv (p : LbtParams) (now : ℚ) (draw : ℕ) (s : BwpLbtState)
    (h : LbtInv s) : LbtInv ((channelAccessRequest p now draw s).1) := by
  obtain ⟨hFA, hr0, hr1, ho⟩ := h
  have hb := rate_update_bounds s.lbtFailureRate (s.totalFailures + 1)
    (s.totalAttempts + 1) hr0 hr1 (by omega) (by omega)
  simp only [channelAccessRequest]
  split_ifs with h1 h2
  · simp only [LbtInv, updateFailureRate]
    exact ⟨by omega, by push_cast; push_cast at hb; exact hb.1,
      by push_cast; push_cast at hb; exact hb.2, ho⟩
  · simp only [LbtInv, updateFailureRate]
    exact ⟨by omega, by push_cast; push_cast at hb; exact hb.1,
      by push_cast; push_cast at hb; exact hb.2, ho⟩
  · simp only [LbtInv]
    exact ⟨by omega, hr0, hr1, ho⟩

/-- An interference arrival strictly after the last statistics update
preserves the statistics invariant. -/
theorem wifi_lbt_inv (now : ℚ) (slots : ℕ) (s : BwpLbtState)
    (hlt : s.lastUpdateTime < now) (h : LbtInv s) :
    LbtInv (handleWifiInterference now slots s) := by
  obtain ⟨hFA, hr0, hr1, ho⟩ := h
  have hd : (0 : ℚ) < now - s.lastUpdateTime := by linarith
  have hsample : (0 : ℚ) ≤ (slots : ℚ) * (1/2) / (now - s.lastUpdateTime) :=
    div_nonneg (by positivity) (le_of_lt hd)
  simp only [LbtInv, handleWifiInterference]
  exact ⟨hFA, hr0, hr1, by nlinarith⟩

/-- The statistics invariant holds after any admissible run. -/
theorem runLbt_lbt_inv (p : LbtParams) :
    ∀ (es : List LbtEvent) (s : BwpLbtState),
      admissibleB p s es = true → LbtInv s → LbtInv (runLbt p s es) := by
  intro es
  induction es with
  | nil => intro s _ h; exact h
  | cons e es ih =>
      intro s hadm h
      cases e with
      | access now draw =>
          simp only [admissibleB, Bool.true_and] at hadm
          exact ih _ hadm (car_lbt_inv p now draw s h)
      | wifi now slots =>
          simp only [admissibleB, Bool.and_eq_true, decide_eq_true_eq] at hadm
          exact ih _ hadm.2 (wifi_lbt_inv now slots s hadm.1 h)

/-- C7 (amended): over every admissible sequence of access requests
and interference arrivals on a registered BWP, the smoothed
`lbtFailureRate` stays in `[0,1]` and the smoothed `wifiOccupancy`
stays nonnegative (both updated with 0.9/0.1 weights); the occupancy
is not bounded above by 1. -/
theorem C7_smoothed_statistics_bounds (p : LbtParams) (t mean : ℚ) (bwpId : ℕ)
    (es : List LbtEvent)
    (hadm : admissibleB p (addBwp p t bwpId mean) es = true) :
    0 ≤ (runLbt p (addBwp p t bwpId mean) es).lbtFailureRate ∧
    (runLbt p (addBwp p t bwpId mean) es).lbtFailureRate ≤ 1 ∧
    0 ≤ (runLbt p (addBwp p t bwpId mean) es).wifiOccupancy := by
  have h0 : LbtInv (addBwp p t bwpId mean) :=
    ⟨le_refl _, le_refl _, by norm_num [addBwp], le_refl _⟩
  have h := runLbt_lbt_inv p es (addBwp p t bwpId mean) hadm h0
  exact ⟨h.2.1, h.2.2.1, h.2.2.2⟩

/-- Witness for C7 (amended) on a concrete admissible sequence with
one denied request and one interference arrival. -/
theorem C7_smoothed_statistics_bounds_witness :
    admissibleB p0 (addBwp p0 0 0 10)
      [LbtEvent.access 1 4, LbtEvent.wifi 2 3] = true ∧
    (0 ≤ (runLbt p0 (addBwp p0 0 0 10)
        [LbtEvent.access 1 4, LbtEvent.wifi 2 3]).lbtFailureRate ∧
     (runLbt p0 (addBwp p0 0 0 10)
        [LbtEvent.access 1 4, LbtEvent.wifi 2 3]).lbtFailureRate ≤ 1 ∧
     0 ≤ (runLbt p0 (addBwp p0 0 0 10)
        [LbtEvent.access 1 4, LbtEvent.wifi 2 3]).wifiOccupancy) := by
  have hadm : admissibleB p0 (addBwp p0 0 0 10)
      [LbtEvent.access 1 4, LbtEvent.wifi 2 3] = true := by
    simp only [admissibleB, stepLbt, Bool.true_and, Bool.and_true,
      lbt_idle_request_eval, decide_eq_true_eq]
    norm_num
  exact ⟨hadm, C7_smoothed_statistics_bounds p0 0 10 0
    [LbtEvent.access 1 4, LbtEvent.wifi 2 3] hadm⟩

/-- Updating the assignment function at a UE outside the set does not
change any fiber restricted to that set. -/
theorem filter_update_not_mem (s : Finset ℕ) (f : ℕ → ℕ) (u d x : ℕ) (hu : u ∉ s) :
    s.filter (fun v => Function.update f u d v = x) = s.filter (fun v => f v = x) := by
  apply Finset.filter_congr
  intro v hv
  have hne : v ≠ u := fun h => hu (h ▸ hv)
  rw [Function.update_noteq hne]

/-- `AddUe` preserves the registry invariant. -/
theorem addUe_inv (m : NrUeBwpManager) (u : ℕ) (h : MgrInv m) : MgrInv (addUe m u) := by
  obtain ⟨hdef, hmem, hcnt⟩ := h
  by_cases hu : u ∈ m.ues
  · simp only [addUe, if_pos hu]
    exact ⟨hdef, hmem, hcnt⟩
  · have htouch : touchBwp m m.defaultBwpId = m := by simp [touchBwp, hdef]
    simp only [addUe, if_neg hu, htouch]
    dsimp only [MgrInv]
    refine ⟨hdef, ?_, ?_⟩
    · intro v hv
      rcases Finset.mem_insert.mp hv with hvu | hv'
      · subst hvu
        rw [Function.update_same]
        exact hdef
      · have hne : v ≠ u := fun h' => hu (h' ▸ hv')
        rw [Function.update_noteq hne]
        exact hmem v hv'
    · intro b hb
      have hfil : (insert u m.ues).filter
            (fun v => Function.update m.ueBwp u m.defaultBwpId v = b) =
          if m.defaultBwpId = b
          then insert u (m.ues.filter (fun v => m.ueBwp v = b))
          else m.ues.filter (fun v => m.ueBwp v = b) := by
        rw [Finset.filter_insert]
        rw [filter_update_not_mem m.ues m.ueBwp u m.defaultBwpId b hu]
        simp only [Function.update_same]
      by_cases hbd : m.defaultBwpId = b
      · subst hbd
        rw [Function.update_same, hfil, if_pos rfl]
        rw [Finset.card_insert_of_not_mem
          (fun hmem' => hu (Finset.mem_of_mem_filter u hmem'))]
        rw [hcnt _ hdef]
      · rw [Function.update_noteq (fun h' => hbd h'.symm), hfil, if_neg hbd]
        exact hcnt b hb

/-- `RemoveUe` preserves the registry invariant. -/
theorem removeUe_inv (m : NrUeBwpManager) (u : ℕ) (h : MgrInv m) :
    MgrInv (removeUe m u) := by
  obtain ⟨hdef, hmem, hcnt⟩ := h
  by_cases hu : u ∈ m.ues
  · have hbu : m.ueBwp u ∈ m.bwps := hmem u hu
    have htouch : touchBwp m (m.ueBwp u) = m := by simp [touchBwp, hbu]
    simp only [removeUe, if_pos hu, htouch]
    dsimp only [MgrInv]
    refine ⟨hdef, ?_, ?_⟩
    · intro v hv
      exact hmem v (Finset.mem_of_mem_erase hv)
    · intro b hb
      rw [Finset.filter_erase]
      by_cases hbu' : m.ueBwp u = b
      · subst hbu'
        rw [Function.update_same]
        have humem : u ∈ m.ues.filter (fun v => m.ueBwp v = m.ueBwp u) :=
          Finset.mem_filter.mpr ⟨hu, rfl⟩
        rw [Finset.card_erase_of_mem humem]
        rw [hcnt _ hbu]
      · rw [Function.update_noteq (fun h' => hbu' h'.symm)]
        have hnotmem : u ∉ m.ues.filter (fun v => m.ueBwp v = b) :=
          fun hmem' => hbu' (Finset.mem_filter.mp hmem').2
        rw [Finset.erase_eq_of_not_mem hnotmem]
        exact hcnt b hb
  · simp only [removeUe, if_neg hu]
    exact ⟨hdef, hmem, hcnt⟩

/-- `SwitchBwp` preserves the registry invariant. -/
theorem switchBwp_inv (m : NrUeBwpManager) (u b : ℕ) (h : MgrInv m) :
    MgrInv (switchBwp m u b) := by
  obtain ⟨hdef, hmem, hcnt⟩ := h
  by_cases hcond : u ∈ m.ues ∧ b ∈ m.bwps
  · obtain ⟨hu, hb⟩ := hcond
    by_cases heq : m.ueBwp u = b
    · simp only [switchBwp, if_pos (And.intro hu hb), if_pos heq]
      exact ⟨hdef, hmem, hcnt⟩
    · have hold : m.ueBwp u ∈ m.bwps := hmem u hu
      have htouch : touchBwp m (m.ueBwp u) = m := by simp [touchBwp, hold]
      simp only [switchBwp, if_pos (And.intro hu hb), if_neg heq, htouch]
      dsimp only [MgrInv]
      refine ⟨hdef, ?_, ?_⟩
      · intro v hv
        by_cases hvu : v = u
        · subst hvu
          rw [Function.update_same]
          exact hb
        · rw [Function.update_noteq hvu]
          exact hmem v hv
      · intro c hc
        have hne_bo : b ≠ m.ueBwp u := fun h' => heq h'.symm
        have hrepr : m.ues = insert u (m.ues.erase u) := (Finset.insert_erase hu).symm
        have hfil : m.ues.filter (fun v => Function.update m.ueBwp u b v = c) =
            if b = c
            then insert u ((m.ues.erase u).filter (fun v => m.ueBwp v = c))
            else (m.ues.erase u).filter (fun v => m.ueBwp v = c) := by
          conv =>
            lhs
            rw [hrepr]
          rw [Finset.filter_insert]
          rw [filter_update_not_mem (m.ues.erase u) m.ueBwp u b c
            (Finset.not_mem_erase u m.ues)]
          simp only [Function.update_same]
        by_cases hcb : c = b
        · subst hcb
          rw [Function.update_same, Function.update_noteq hne_bo]
          rw [hfil, if_pos rfl, Finset.filter_erase]
          have hnotmem : u ∉ m.ues.filter (fun v => m.ueBwp v = c) :=
            fun hmem' => heq (Finset.mem_filter.mp hmem').2
          rw [Finset.erase_eq_of_not_mem hnotmem]
          rw [Finset.card_insert_of_not_mem hnotmem]
          rw [hcnt _ hb]
        · rw [Function.update_noteq hcb]
          rw [hfil, if_neg (fun h' => hcb h'.symm), Finset.filter_erase]
          by_cases hco : c = m.ueBwp u
          · subst hco
            rw [Function.update_same]
            have humem : u ∈ m.ues.filter (fun v => m.ueBwp v = m.ueBwp u) :=
              Finset.mem_filter.mpr ⟨hu, rfl⟩
            rw [Finset.card_erase_of_mem humem]
            rw [hcnt _ hold]
          · rw [Function.update_noteq hco]
            have hnotmem : u ∉ m.ues.filter (fun v => m.ueBwp v = c) :=
              fun hmem' => hco ((Finset.mem_filter.mp hmem').2).symm
            rw [Finset.erase_eq_of_not_mem hnotmem]
            exact hcnt c hc
  · simp only [switchBwp, if_neg hcond]
    exact ⟨hdef, hmem, hcnt⟩

/-- Every registry event preserves the invariant. -/
theorem mgrStep_inv (m : NrUeBwpManager) (e : MgrEvent) (h : MgrInv m) :
    MgrInv (mgrStep m e) := by
  cases e with
  | addUe u => exact addUe_inv m u h
  | removeUe u => exact removeUe_inv m u h
  | switchBwp u b => exact switchBwp_inv m u b h

/-- The registry invariant holds after any run of events. -/
theorem mgrRun_inv (es : List MgrEvent) : ∀ m : NrUeBwpManager,
    MgrInv m → MgrInv (mgrRun m es) := by
  induction es with
  | nil => intro m h; exact h
  | cons e es ih => intro m h; exact ih _ (mgrStep_inv m e h)

/-- Under the invariant, the active counts sum to the number of
registered UEs. -/
theorem mgr_conservation_of_inv (m : NrUeBwpManager) (h : MgrInv m) :
    Finset.sum m.bwps m.activeUes = m.ues.card := by
  obtain ⟨hdef, hmem, hcnt⟩ := h
  rw [Finset.card_eq_sum_card_fiberwise hmem]
  exact Finset.sum_congr rfl hcnt

/-- `SwitchBwp` on registered ids with a genuinely new BWP moves
exactly one unit of count from the old BWP to the new one and
re-points the UE, in the same step. -/
theorem switchBwp_atomic (m : NrUeBwpManager) (u b : ℕ) (h : MgrInv m)
    (hu : u ∈ m.ues) (hb : b ∈ m.bwps) (hne : m.ueBwp u ≠ b) :
    (switchBwp m u b).activeUes (m.ueBwp u) + 1 = m.activeUes (m.ueBwp u) ∧
    (switchBwp m u b).activeUes b = m.activeUes b + 1 ∧
    (switchBwp m u b).ueBwp u = b := by
  obtain ⟨hdef, hmem, hcnt⟩ := h
  have hold : m.ueBwp u ∈ m.bwps := hmem u hu
  have htouch : touchBwp m (m.ueBwp u) = m := by simp [touchBwp, hold]
  simp only [switchBwp, if_pos (And.intro hu hb), if_neg hne, htouch]
  refine ⟨?_, ?_, Function.update_same u b m.ueBwp⟩
  · rw [Function.update_noteq hne, Function.update_same]
    have hpos : 1 ≤ m.activeUes (m.ueBwp u) := by
      rw [hcnt _ hold]
      exact Finset.card_pos.mpr ⟨u, Finset.mem_filter.mpr ⟨hu, rfl⟩⟩
    omega
  · rw [Function.update_same, Function.update_noteq (Ne.symm hne)]

/-- C3: for every sequence of `AddUe`, `RemoveUe` and `SwitchBwp`
calls from an invariant-satisfying registry, the invariant persists,
the sum of active-terminal counts over all sub-bands equals the number
of registered terminals after every call, and `SwitchBwp` on
registered ids decrements the old sub-band, increments the new one and
updates the terminal's recorded sub-band together in one step. -/
theorem C3_assignment_conservation (m0 : NrUeBwpManager) (es : List MgrEvent)
    (h0 : MgrInv m0) :
    MgrInv (mgrRun m0 es) ∧
    Finset.sum (mgrRun m0 es).bwps (mgrRun m0 es).activeUes =
      (mgrRun m0 es).ues.card ∧
    (∀ u b, u ∈ (mgrRun m0 es).ues → b ∈ (mgrRun m0 es).bwps →
      (mgrRun m0 es).ueBwp u ≠ b →
      (switchBwp (mgrRun m0 es) u b).activeUes ((mgrRun m0 es).ueBwp u) + 1 =
        (mgrRun m0 es).activeUes ((mgrRun m0 es).ueBwp u) ∧
      (switchBwp (mgrRun m0 es) u b).activeUes b =
        (mgrRun m0 es).activeUes b + 1 ∧
      (switchBwp (mgrRun m0 es) u b).ueBwp u = b) := by
  have hinv := mgrRun_inv es m0 h0
  refine ⟨hinv, mgr_conservation_of_inv _ hinv, ?_⟩
  intro u b hu hb hne
  exact switchBwp_atomic _ u b hinv hu hb hne

/-- Witness for C3 on a concrete registry and call sequence
(two `AddUe`, one `SwitchBwp`, one `RemoveUe`). -/
theorem C3_assignment_conservation_witness :
    MgrInv mgr0 ∧
    (MgrInv (mgrRun mgr0
        [MgrEvent.addUe 1, MgrEvent.addUe 2, MgrEvent.switchBwp 1 1,
         MgrEvent.removeUe 2]) ∧
     Finset.sum (mgrRun mgr0
        [MgrEvent.addUe 1, MgrEvent.addUe 2, MgrEvent.switchBwp 1 1,
         MgrEvent.removeUe 2]).bwps
       (mgrRun mgr0
        [MgrEvent.addUe 1, MgrEvent.addUe 2, MgrEvent.switchBwp 1 1,
         MgrEvent.removeUe 2]).activeUes =
       (mgrRun mgr0
        [MgrEvent.addUe 1, MgrEvent.addUe 2, MgrEvent.switchBwp 1 1,
         MgrEvent.removeUe 2]).ues.card ∧
     (∀ u b, u ∈ (mgrRun mgr0
        [MgrEvent.addUe 1, MgrEvent.addUe 2, MgrEvent.switchBwp 1 1,
         MgrEvent.removeUe 2]).ues →
       b ∈ (mgrRun mgr0
        [MgrEvent.addUe 1, MgrEvent.addUe 2, MgrEvent.switchBwp 1 1,
         MgrEvent.removeUe 2]).bwps →
       (mgrRun mgr0
        [MgrEvent.addUe 1, MgrEvent.addUe 2, MgrEvent.switchBwp 1 1,
         MgrEvent.removeUe 2]).ueBwp u ≠ b →
       (switchBwp (mgrRun mgr0
        [MgrEvent.addUe 1, MgrEvent.addUe 2, MgrEvent.switchBwp 1 1,
         MgrEvent.removeUe 2]) u b).activeUes
           ((mgrRun mgr0
        [MgrEvent.addUe 1, MgrEvent.addUe 2, MgrEvent.switchBwp 1 1,
         MgrEvent.removeUe 2]).ueBwp u) + 1 =
         (mgrRun mgr0
        [MgrEvent.addUe 1, MgrEvent.addUe 2, MgrEvent.switchBwp 1 1,
         MgrEvent.removeUe 2]).activeUes
           ((mgrRun mgr0
        [MgrEvent.addUe 1, MgrEvent.addUe 2, MgrEvent.switchBwp 1 1,
         MgrEvent.removeUe 2]).ueBwp u) ∧
       (switchBwp (mgrRun mgr0
        [MgrEvent.addUe 1, MgrEvent.addUe 2, MgrEvent.switchBwp 1 1,
         MgrEvent.removeUe 2]) u b).activeUes b =
         (mgrRun mgr0
        [MgrEvent.addUe 1, MgrEvent.addUe 2, MgrEvent.switchBwp 1 1,
         MgrEvent.removeUe 2]).activeUes b + 1 ∧
       (switchBwp (mgrRun mgr0
        [MgrEvent.addUe 1, MgrEvent.addUe 2, MgrEvent.switchBwp 1 1,
         MgrEvent.removeUe 2]) u b).ueBwp u = b)) :=
  ⟨by decide, C3_assignment_conservation mgr0
    [MgrEvent.addUe 1, MgrEvent.addUe 2, MgrEvent.switchBwp 1 1,
     MgrEvent.removeUe 2] (by decide)⟩

/-- Characterization of the best-BWP scan of `AssignBwpsLca`: the
running maximum never decreases, bounds every metric in the list, and
the final pair is either the accumulator or comes from a list entry
that strictly beats the accumulator and every earlier entry. -/
theorem lcaBest_foldl_spec (mgr : NrUeBwpManager) :
    ∀ (l : List BwpStats) (acc : ℕ × ℚ),
      acc.2 ≤ (l.foldl (fun best s =>
          if best.2 < lcaMetric mgr s then (s.bwpId, lcaMetric mgr s) else best) acc).2 ∧
      (∀ s ∈ l, lcaMetric mgr s ≤ (l.foldl (fun best s =>
          if best.2 < lcaMetric mgr s then (s.bwpId, lcaMetric mgr s) else best) acc).2) ∧
      ((l.foldl (fun best s =>
          if best.2 < lcaMetric mgr s then (s.bwpId, lcaMetric mgr s) else best) acc) = acc ∨
        ∃ i, ∃ h : i < l.length,
          (l.foldl (fun best s =>
            if best.2 < lcaMetric mgr s then (s.bwpId, lcaMetric mgr s) else best) acc).1 =
            (l.get ⟨i, h⟩).bwpId ∧
          (l.foldl (fun best s =>
            if best.2 < lcaMetric mgr s then (s.bwpId, lcaMetric mgr s) else best) acc).2 =
            lcaMetric mgr (l.get ⟨i, h⟩) ∧
          acc.2 < (l.foldl (fun best s =>
            if best.2 < lcaMetric mgr s then (s.bwpId, lcaMetric mgr s) else best) acc).2 ∧
          ∀ j (hj : j < i), lcaMetric mgr (l.get ⟨j, hj.trans h⟩) <
            (l.foldl (fun best s =>
              if best.2 < lcaMetric mgr s then (s.bwpId, lcaMetric mgr s) else best) acc).2) := by
  intro l
  induction l with
  | nil =>
      intro acc
      exact ⟨le_refl _, fun s hs => absurd hs (List.not_mem_nil s), Or.inl rfl⟩
  | cons s l ih =>
      intro acc
      rw [List.foldl_cons]
      by_cases hlt : acc.2 < lcaMetric mgr s
      · rw [if_pos hlt]
        obtain ⟨ih1, ih2, ih3⟩ := ih (s.bwpId, lcaMetric mgr s)
        refine ⟨le_trans (le_of_lt hlt) ih1, ?_, ?_⟩
        · intro x hx
          rcases List.mem_cons.mp hx with hxs | hxl
          · subst hxs; exact ih1
          · exact ih2 x hxl
        · rcases ih3 with heq | ⟨i, h, h1, h2, h3, h4⟩
          · refine Or.inr ⟨0, Nat.succ_pos _, ?_, ?_, ?_, ?_⟩
            · rw [heq]
              rfl
            · rw [heq]
              rfl
            · rw [heq]
              exact hlt
            · intro j hj
              exact absurd hj (Nat.not_lt_zero j)
          · refine Or.inr ⟨i + 1, Nat.succ_lt_succ h, h1, h2, lt_trans hlt h3, ?_⟩
            intro j hj
            cases j with
            | zero => exact h3
            | succ j' => exact h4 j' (Nat.lt_of_succ_lt_succ hj)
      · rw [if_neg hlt]
        obtain ⟨ih1, ih2, ih3⟩ := ih acc
        refine ⟨ih1, ?_, ?_⟩
        · intro x hx
          rcases List.mem_cons.mp hx with hxs | hxl
          · subst hxs; exact le_trans (not_lt.mp hlt) ih1
          · exact ih2 x hxl
        · rcases ih3 with heq | ⟨i, h, h1, h2, h3, h4⟩
          · exact Or.inl heq
          · refine Or.inr ⟨i + 1, Nat.succ_lt_succ h, h1, h2, h3, ?_⟩
            intro j hj
            cases j with
            | zero => exact lt_of_le_of_lt (not_lt.mp hlt) h3
            | succ j' => exact h4 j' (Nat.lt_of_succ_lt_succ hj)

/-- `SwitchBwp` never changes the set of registered UEs. -/
theorem switchBwp_ues_eq (m : NrUeBwpManager) (u b : ℕ) :
    (switchBwp m u b).ues = m.ues := by
  by_cases hcond : u ∈ m.ues ∧ b ∈ m.bwps
  · by_cases heq : m.ueBwp u = b
    · simp only [switchBwp, if_pos hcond, if_pos heq]
    · simp only [switchBwp, if_pos hcond, if_neg heq, touchBwp]
      split_ifs <;> rfl
  · simp only [switchBwp, if_neg hcond]

/-- `SwitchBwp` never removes a registered BWP. -/
theorem switchBwp_bwps_mono (m : NrUeBwpManager) (u b x : ℕ) (hx : x ∈ m.bwps) :
    x ∈ (switchBwp m u b).bwps := by
  by_cases hcond : u ∈ m.ues ∧ b ∈ m.bwps
  · by_cases heq : m.ueBwp u = b
    · simp only [switchBwp, if_pos hcond, if_pos heq]
      exact hx
    · simp only [switchBwp, if_pos hcond, if_neg heq, touchBwp]
      split_ifs
      · exact hx
      · exact Finset.mem_insert_of_mem hx
  · simp only [switchBwp, if_neg hcond]
    exact hx

/-- A successful `SwitchBwp` points the UE at the target BWP. -/
theorem switchBwp_ueBwp_self (m : NrUeBwpManager) (u b : ℕ)
    (hu : u ∈ m.ues) (hb : b ∈ m.bwps) : (switchBwp m u b).ueBwp u = b := by
  by_cases heq : m.ueBwp u = b
  · simp only [switchBwp, if_pos (And.intro hu hb), if_pos heq]
    exact heq
  · simp only [switchBwp, if_pos (And.intro hu hb), if_neg heq, touchBwp]
    split_ifs <;> rw [Function.update_same]

/-- `SwitchBwp` toward `b` never moves a UE away from `b`. -/
theorem switchBwp_ueBwp_keep (m : NrUeBwpManager) (u b x : ℕ)
    (hx : m.ueBwp x = b) : (switchBwp m u b).ueBwp x = b := by
  by_cases hcond : u ∈ m.ues ∧ b ∈ m.bwps
  · by_cases heq : m.ueBwp u = b
    · simp only [switchBwp, if_pos hcond, if_pos heq]
      exact hx
    · simp only [switchBwp, if_pos hcond, if_neg heq, touchBwp]
      split_ifs with ho
      · by_cases hxu : x = u
        · subst hxu
          rw [Function.update_same]
        · rw [Function.update_noteq hxu]
          exact hx
      · by_cases hxu : x = u
        · subst hxu
          rw [Function.update_same]
        · rw [Function.update_noteq hxu]
          exact hx
  · simp only [switchBwp, if_neg hcond]
    exact hx

/-- Folding `SwitchBwp` toward a fixed `b` keeps every UE already on
`b` there. -/
theorem fold_switch_keep (b : ℕ) : ∀ (l : List UeStats) (m : NrUeBwpManager) (x : ℕ),
    m.ueBwp x = b →
    (l.foldl (fun m u => switchBwp m u.ueId b) m).ueBwp x = b := by
  intro l
  induction l with
  | nil => intro m x hx; exact hx
  | cons u l ih =>
      intro m x hx
      rw [List.foldl_cons]
      exact ih _ x (switchBwp_ueBwp_keep m u.ueId b x hx)

/-- Folding `SwitchBwp` toward a registered `b` over registered UEs
ends with every UE of the list on `b`. -/
theorem fold_switch_all (b : ℕ) : ∀ (l : List UeStats) (m : NrUeBwpManager),
    b ∈ m.bwps → (∀ u ∈ l, u.ueId ∈ m.ues) →
    ∀ u ∈ l, (l.foldl (fun m u => switchBwp m u.ueId b) m).ueBwp u.ueId = b := by
  intro l
  induction l with
  | nil => intro m _ _ u hu; exact absurd hu (List.not_mem_nil u)
  | cons v l ih =>
      intro m hb hues u hu
      rw [List.foldl_cons]
      rcases List.mem_cons.mp hu with huv | hul
      · subst huv
        exact fold_switch_keep b l _ u.ueId
          (switchBwp_ueBwp_self m u.ueId b (hues u (List.mem_cons_self u l)) hb)
      · exact ih (switchBwp m v.ueId b)
          (switchBwp_bwps_mono m v.ueId b b hb)
          (fun w hw => by
            rw [switchBwp_ues_eq]
            exact hues w (List.mem_cons_of_mem v hw))
          u hul

/-- C5: when the BWP statistics list is positionally indexed (as
`DoInitialize` builds it), all metrics are nonnegative, and the UE
count is at most `maxScheduledUes`, `AssignBwpsLca` switches every UE
to the scan winner, which carries the maximum metric and is the
earliest (lowest-id) entry among the maximizers: every entry before it
has a strictly smaller metric. -/
theorem C5_lca_assigns_best_bwp (mgr : NrUeBwpManager) (stats : List BwpStats)
    (ues : List UeStats) (maxScheduledUes : ℕ)
    (hpos : ∀ i (h : i < stats.length), (stats.get ⟨i, h⟩).bwpId = i)
    (hnn : ∀ s ∈ stats, 0 ≤ lcaMetric mgr s)
    (hne : stats ≠ [])
    (hlen : ues.length ≤ maxScheduledUes)
    (hbest : (lcaBest mgr stats).1 ∈ mgr.bwps)
    (hues : ∀ u ∈ ues, u.ueId ∈ mgr.ues) :
    ∃ hb : (lcaBest mgr stats).1 < stats.length,
      (∀ s ∈ stats,
        lcaMetric mgr s ≤ lcaMetric mgr (stats.get ⟨(lcaBest mgr stats).1, hb⟩)) ∧
      (∀ j (hj : j < (lcaBest mgr stats).1),
        lcaMetric mgr (stats.get ⟨j, hj.trans hb⟩) <
          lcaMetric mgr (stats.get ⟨(lcaBest mgr stats).1, hb⟩)) ∧
      ∀ u ∈ ues,
        (assignBwpsLca mgr stats ues maxScheduledUes).ueBwp u.ueId =
          (lcaBest mgr stats).1 := by
  have hLB : lcaBest mgr stats = stats.foldl (fun best s =>
      if best.2 < lcaMetric mgr s then (s.bwpId, lcaMetric mgr s) else best) (0, 0) := rfl
  obtain ⟨h1, h2, h3⟩ := lcaBest_foldl_spec mgr stats (0, 0)
  rw [← hLB] at h1 h2 h3
  have hassign : ∀ u ∈ ues,
      (assignBwpsLca mgr stats ues maxScheduledUes).ueBwp u.ueId =
        (lcaBest mgr stats).1 := by
    intro u hu
    have hif : assignBwpsLca mgr stats ues maxScheduledUes =
        ues.foldl (fun m u => switchBwp m u.ueId (lcaBest mgr stats).1) mgr := by
      simp only [assignBwpsLca, if_pos hlen]
    rw [hif]
    exact fold_switch_all _ ues mgr hbest hues u hu
  rcases h3 with heq | ⟨i, h, hb1, hb2, hb3, hb4⟩
  · have hz1 : (lcaBest mgr stats).1 = 0 := by rw [heq]
    have hz2 : (lcaBest mgr stats).2 = 0 := by rw [heq]
    have hb : (lcaBest mgr stats).1 < stats.length := by
      rw [hz1]
      exact List.length_pos.mpr hne
    refine ⟨hb, ?_, ?_, hassign⟩
    · intro s hs
      have hle := h2 s hs
      have hge := hnn _ (List.get_mem stats (lcaBest mgr stats).1 hb)
      linarith
    · intro j hj
      rw [hz1] at hj
      exact absurd hj (Nat.not_lt_zero j)
  · have hidx : (lcaBest mgr stats).1 = i := by
      rw [hb1]
      exact hpos i h
    have hb : (lcaBest mgr stats).1 < stats.length := by
      rw [hidx]
      exact h
    have hgeteq : stats.get ⟨(lcaBest mgr stats).1, hb⟩ = stats.get ⟨i, h⟩ := by
      congr 1
      exact Fin.ext hidx
    refine ⟨hb, ?_, ?_, hassign⟩
    · intro s hs
      rw [hgeteq, ← hb2]
      exact h2 s hs
    · intro j hj
      rw [hgeteq, ← hb2]
      exact hb4 j (hidx ▸ hj)

/-- Witness for C5: the end-to-end scenario with metrics 180 and 100,
five UEs and `maxScheduledUes = 16`: the scan picks sub-band 0 and all
five UEs end assigned to it. -/
theorem C5_lca_assigns_best_bwp_witness :
    uesC5.length ≤ 16 ∧
    (lcaBest mgrC5 statsC5).1 = 0 ∧
    ∀ u ∈ uesC5, (assignBwpsLca mgrC5 statsC5 uesC5 16).ueBwp u.ueId = 0 := by
  have hL : lcaBest mgrC5 statsC5 = (0, 180) := by
    norm_num [lcaBest, statsC5, lcaMetric, getNumRbs, mgrC5, List.foldl]
  have happ := C5_lca_assigns_best_bwp mgrC5 statsC5 uesC5 16
    (by decide)
    (by
      intro s hs
      rcases List.mem_cons.mp hs with h | hs'
      · subst h
        norm_num [lcaMetric, getNumRbs, mgrC5]
      · rcases List.mem_cons.mp hs' with h | hs''
        · subst h
          norm_num [lcaMetric, getNumRbs, mgrC5]
        · exact absurd hs'' (List.not_mem_nil s))
    (by decide)
    (by decide)
    (by rw [hL]; decide)
    (by decide)
  obtain ⟨hb, _, _, hall⟩ := happ
  refine ⟨by decide, by rw [hL], ?_⟩
  intro u hu
  rw [hall u hu, hL]

end NrU
